import Mathlib

/-!
# Verification of the `random_permutation` package

A shallow embedding of `random_permutation/permutation.py`, which generates a
pseudorandom permutation of `[0, N)` via a Feistel network combined with
cycle-walking, together with proofs of the specified properties.

Python integers are modelled as `ℤ`.  Python's `divmod`, `//` and `%` with a
positive divisor agree with Lean's `Int.ediv` / `Int.emod` (the `/` and `%`
notation on `ℤ`), so the arithmetic below is a direct transcription.

The AES-128/SHA-512/Mersenne-Twister pipeline used by `_make_ciphers` and
`_scramble` is external library code (the `cryptography`, `hashlib` and
`random` modules), not code of this repository.  Per the specification it is a
deterministic black box: each cipher acts on the Feistel halves only through
the integer-valued single-block encryption map `v ↦ scramble(cipher, v)`.  We
therefore model a cipher directly as an arbitrary function `ℤ → ℤ`, and the
key-derivation pipeline as an arbitrary deterministic function
`roundFun : seed → round index → (ℤ → ℤ)`.  All theorems quantify over these
functions, which matches the specification's statement that the construction
is a bijection "independent of how good the round functions are".
-/

namespace RandomPerm

/-- `math.ceil(math.sqrt(n))`, modelled exactly (the Python code delegates to
the external `math` library; we model the real-valued square root and ceiling
exactly): the least `k` with `k * k ≥ n`, computed from `Nat.sqrt`. -/
def ceilSqrt (n : ℤ) : ℤ :=
  if Nat.sqrt n.toNat * Nat.sqrt n.toNat = n.toNat then (Nat.sqrt n.toNat : ℤ)
  else (Nat.sqrt n.toNat : ℤ) + 1

/-- `RandomPermutation._scramble(cipher, num)`: the cipher's single-block
encryption viewed as a map on integers (16-byte little-endian signed
encoding on both sides).  Since the cipher is modelled as the integer map
itself, scrambling is application. -/
def scramble (cipher : ℤ → ℤ) (num : ℤ) : ℤ := cipher num

/-- `_make_ciphers(seed, num_ciphers)`: derives an ordered list of
`num_ciphers` keyed ciphers deterministically from `seed`.  The external
RNG/hash/AES pipeline is abstracted by `roundFun`: the cipher at round `j`
for a given seed is `roundFun seed j`. -/
def make_ciphers (roundFun : ℤ → ℕ → ℤ → ℤ) (seed : ℤ) (num_ciphers : ℕ) :
    List (ℤ → ℤ) :=
  (List.range num_ciphers).map (fun j => roundFun seed j)

/-- The state built by `RandomPermutation.__init__`: immutable after
construction. -/
structure RandomPermutation where
  max : ℤ
  seed : ℤ
  ciphers : List (ℤ → ℤ)
  a : ℤ
  b : ℤ

/-- `RandomPermutation.__init__(length, seed, num_ciphers)`. -/
def mkRandomPermutation (roundFun : ℤ → ℕ → ℤ → ℤ) (length seed : ℤ)
    (num_ciphers : ℕ) : RandomPermutation :=
  { max := length
    seed := seed
    ciphers := make_ciphers roundFun seed num_ciphers
    a := ceilSqrt length
    b := ceilSqrt length }

/-- The loop body of `_feistel`: `for j, cipher in enumerate(self.ciphers)`,
carrying the enumeration index `j` and the pair `(l, r)`.  At each round
`tmp = (l + scramble(cipher, r)) % (a if j even else b)` and the halves are
swapped: `(l, r) ← (r, tmp)`. -/
def feistelLoop (a b : ℤ) : ℕ → List (ℤ → ℤ) → ℤ × ℤ → ℤ × ℤ
  | _, [], lr => lr
  | j, cipher :: rest, lr =>
      feistelLoop a b (j + 1) rest
        (lr.2, if j % 2 = 0 then (lr.1 + scramble cipher lr.2) % a
               else (lr.1 + scramble cipher lr.2) % b)

/-- `RandomPermutation._feistel(num)`: split `l, r = divmod(num, a)`, run the
rounds, and recombine as `a*l + r` for an odd number of ciphers and
`a*r + l` for an even number. -/
def feistel (a b : ℤ) (ciphers : List (ℤ → ℤ)) (num : ℤ) : ℤ :=
  let lr := feistelLoop a b 0 ciphers (num / a, num % a)
  if ciphers.length % 2 = 1 then a * lr.1 + lr.2 else a * lr.2 + lr.1

/-- The cycle-walking loop of `__getitem__`/`__iter__`:
`while True: index = self._feistel(index); if index < self.max: return index`,
with explicit fuel; `none` means the fuel bound was reached without
terminating. -/
def cycleWalk (f : ℤ → ℤ) (N : ℤ) : ℕ → ℤ → Option ℤ
  | 0, _ => none
  | fuel + 1, x =>
      if f x < N then some (f x) else cycleWalk f N fuel (f x)

/-- The worst-case step bound `a*b` of the cycle walk, used as fuel. -/
def walkFuel (p : RandomPermutation) : ℕ := (p.a * p.b).toNat

/-- The permutation value at `index`: the cycle walk run with the worst-case
fuel, defaulting to `0` if the fuel is exhausted (which the termination
theorem rules out on the valid domain). -/
def getVal (p : RandomPermutation) (index : ℤ) : ℤ :=
  (cycleWalk (feistel p.a p.b p.ciphers) p.max (walkFuel p) index).getD 0

/-- Observable outcome of `__getitem__`: an `IndexError`, a returned value,
or exhaustion of the fuel bound (modelling a non-terminating walk). -/
inductive GetResult where
  | indexError : GetResult
  | ok : ℤ → GetResult
  | timeout : GetResult
deriving DecidableEq

/-- `RandomPermutation.__getitem__(index)` (integer branch): raise
`IndexError` when `index >= self.max`, else cycle-walk. -/
def getItem (p : RandomPermutation) (fuel : ℕ) (index : ℤ) : GetResult :=
  if p.max ≤ index then .indexError
  else
    match cycleWalk (feistel p.a p.b p.ciphers) p.max fuel index with
    | some y => .ok y
    | none => .timeout

/-- `RandomPermutation.__iter__`: for each `index in range(self.max)`, yield
the cycle-walk value.  The lazy generator is modelled as the (finite) list of
its yields, one per starting index. -/
def iterList (p : RandomPermutation) (fuel : ℕ) : List (Option ℤ) :=
  (List.range p.max.toNat).map
    (fun i : ℕ => cycleWalk (feistel p.a p.b p.ciphers) p.max fuel (i : ℤ))

/-- `RandomPermutation.__len__`. -/
def lenPerm (p : RandomPermutation) : ℤ := p.max

/-- Spec-side transcription of §4.2 of the specification, word for word:
split `l = x div a`, `r = x mod a`; for each round index j from 0 to R-1
compute `tmp = (l + scramble(F_j, r)) mod a` when j is even and `mod b` when
j is odd, then swap `(l, r) ← (r, tmp)`; finally return `a·l + r` when R is
odd and `a·r + l` when R is even.  Used only to compare against `feistel`,
which is transcribed from the source. -/
def feistelSpecLoop (a b : ℤ) (fs : List (ℤ → ℤ)) (lr : ℤ × ℤ) : ℤ × ℤ :=
  (List.range fs.length).foldl
    (fun lr j =>
      (lr.2, if j % 2 = 0 then (lr.1 + scramble (fs.getD j id) lr.2) % a
             else (lr.1 + scramble (fs.getD j id) lr.2) % b)) lr

def feistelSpec (a b : ℤ) (fs : List (ℤ → ℤ)) (x : ℤ) : ℤ :=
  if fs.length % 2 = 1 then
    a * (feistelSpecLoop a b fs (x / a, x % a)).1 +
      (feistelSpecLoop a b fs (x / a, x % a)).2
  else
    a * (feistelSpecLoop a b fs (x / a, x % a)).2 +
      (feistelSpecLoop a b fs (x / a, x % a)).1

/-! ## Analysis-side definitions: the Feistel inverse

With `a = b` (as in the constructed object, where `a = b = ceilSqrt N`), the
round loop is independent of the enumeration index; `feistelLoopS` is that
simplified loop and `feistelLoopInv`/`feistelInv` its explicit inverse. -/

/-- The round loop when both moduli are `a` (index-independent). -/
def feistelLoopS (a : ℤ) : List (ℤ → ℤ) → ℤ × ℤ → ℤ × ℤ
  | [], lr => lr
  | cipher :: rest, lr =>
      feistelLoopS a rest (lr.2, (lr.1 + scramble cipher lr.2) % a)

/-- Inverse of `feistelLoopS`: undo the rounds in reverse order. -/
def feistelLoopInv (a : ℤ) : List (ℤ → ℤ) → ℤ × ℤ → ℤ × ℤ
  | [], lr => lr
  | cipher :: rest, lr =>
      let q := feistelLoopInv a rest lr
      ((q.2 - scramble cipher q.1) % a, q.1)

/-- Explicit inverse of `feistel a a fs` on `[0, a*a)`. -/
def feistelInv (a : ℤ) (fs : List (ℤ → ℤ)) (y : ℤ) : ℤ :=
  let lr := if fs.length % 2 = 1 then (y / a, y % a) else (y % a, y / a)
  let q := feistelLoopInv a fs lr
  a * q.1 + q.2

/-- Both halves lie in `[0, a)`. -/
def InBox (a : ℤ) (lr : ℤ × ℤ) : Prop :=
  0 ≤ lr.1 ∧ lr.1 < a ∧ 0 ≤ lr.2 ∧ lr.2 < a

/-! ## Basic lemmas -/

lemma ceilSqrt_pos {n : ℤ} (hn : 0 < n) : 0 < ceilSqrt n := by
  unfold ceilSqrt
  split
  · rename_i h
    have h0 : n.toNat ≠ 0 := by omega
    have : Nat.sqrt n.toNat ≠ 0 := by
      intro hs
      rw [hs] at h
      simp at h
      omega
    exact_mod_cast Nat.pos_of_ne_zero this
  · positivity

lemma le_ceilSqrt_mul {n : ℤ} (hn : 0 ≤ n) : n ≤ ceilSqrt n * ceilSqrt n := by
  unfold ceilSqrt
  have hcast : n = (n.toNat : ℤ) := (Int.toNat_of_nonneg hn).symm
  split
  · rename_i h
    rw [hcast]
    exact_mod_cast h.ge
  · have h2 : n.toNat < (Nat.sqrt n.toNat + 1) * (Nat.sqrt n.toNat + 1) := by
      have := Nat.lt_succ_sqrt' n.toNat
      simpa [Nat.succ_eq_add_one, pow_two] using this
    rw [hcast]
    exact_mod_cast h2.le

lemma emod_add_sub {a : ℤ} {l : ℤ} (s : ℤ) (h0 : 0 ≤ l)
    (h1 : l < a) : ((l + s) % a - s) % a = l := by
  have h2 : ((l + s) % a - s) % a = ((l + s) - s) % a := by
    conv_lhs => rw [Int.sub_emod]
    conv_rhs => rw [Int.sub_emod]
    rw [Int.emod_emod_of_dvd _ dvd_rfl]
  rw [h2, add_sub_cancel_right, Int.emod_eq_of_lt h0 h1]

lemma emod_sub_add {a : ℤ} {r : ℤ} (s : ℤ) (h0 : 0 ≤ r)
    (h1 : r < a) : ((r - s) % a + s) % a = r := by
  have h2 : ((r - s) % a + s) % a = ((r - s) + s) % a := by
    conv_lhs => rw [Int.add_emod]
    conv_rhs => rw [Int.add_emod]
    rw [Int.emod_emod_of_dvd _ dvd_rfl]
  rw [h2, sub_add_cancel, Int.emod_eq_of_lt h0 h1]

lemma split_mem_box {a : ℤ} (ha : 0 < a) {x : ℤ} (hx : 0 ≤ x)
    (hx2 : x < a * a) : InBox a (x / a, x % a) := by
  refine ⟨Int.ediv_nonneg hx ha.le, ?_, Int.emod_nonneg x ha.ne', Int.emod_lt_of_pos x ha⟩
  exact (Int.ediv_lt_iff_lt_mul ha).mpr hx2

lemma combine_mem {a : ℤ} (ha : 0 < a) {lr : ℤ × ℤ} (h : InBox a lr) :
    0 ≤ a * lr.1 + lr.2 ∧ a * lr.1 + lr.2 < a * a := by
  obtain ⟨h1, h2, h3, h4⟩ := h
  constructor
  · have := mul_nonneg ha.le h1
    omega
  · nlinarith

lemma combine_ediv {a : ℤ} (ha : 0 < a) {lr : ℤ × ℤ} (h : InBox a lr) :
    (a * lr.1 + lr.2) / a = lr.1 ∧ (a * lr.1 + lr.2) % a = lr.2 := by
  obtain ⟨h1, h2, h3, h4⟩ := h
  constructor
  · rw [add_comm, Int.add_mul_ediv_left _ _ ha.ne', Int.ediv_eq_zero_of_lt h3 h4,
      zero_add]
  · rw [add_comm, Int.add_mul_emod_self_left, Int.emod_eq_of_lt h3 h4]

/-! ## The Feistel loop with equal moduli -/

lemma feistelLoop_eq_S (a : ℤ) (fs : List (ℤ → ℤ)) :
    ∀ (j : ℕ) (lr : ℤ × ℤ), feistelLoop a a j fs lr = feistelLoopS a fs lr := by
  induction fs with
  | nil => intro j lr; rfl
  | cons c rest ih =>
      intro j lr
      simp only [feistelLoop, feistelLoopS, ite_self]
      exact ih (j + 1) _

lemma feistelLoopS_box {a : ℤ} (ha : 0 < a) (fs : List (ℤ → ℤ)) :
    ∀ lr : ℤ × ℤ, InBox a lr → InBox a (feistelLoopS a fs lr) := by
  induction fs with
  | nil => intro lr h; exact h
  | cons c rest ih =>
      intro lr h
      exact ih _ ⟨h.2.2.1, h.2.2.2, Int.emod_nonneg _ ha.ne', Int.emod_lt_of_pos _ ha⟩

lemma feistelLoopS_box_of_snd {a : ℤ} (ha : 0 < a) :
    ∀ (fs : List (ℤ → ℤ)) (lr : ℤ × ℤ), fs ≠ [] → 0 ≤ lr.2 → lr.2 < a →
      InBox a (feistelLoopS a fs lr) := by
  intro fs
  induction fs with
  | nil => intro lr h; exact absurd rfl h
  | cons c rest ih =>
      intro lr _ h0 h1
      cases rest with
      | nil =>
          exact ⟨h0, h1, Int.emod_nonneg _ ha.ne', Int.emod_lt_of_pos _ ha⟩
      | cons d rest' =>
          exact ih _ (by simp) (Int.emod_nonneg _ ha.ne') (Int.emod_lt_of_pos _ ha)

lemma feistelLoopInv_box {a : ℤ} (ha : 0 < a) (fs : List (ℤ → ℤ)) :
    ∀ lr : ℤ × ℤ, InBox a lr → InBox a (feistelLoopInv a fs lr) := by
  induction fs with
  | nil => intro lr h; exact h
  | cons c rest ih =>
      intro lr h
      have hq := ih lr h
      exact ⟨Int.emod_nonneg _ ha.ne', Int.emod_lt_of_pos _ ha, hq.1, hq.2.1⟩

lemma feistelLoopInv_feistelLoopS {a : ℤ} (ha : 0 < a) (fs : List (ℤ → ℤ)) :
    ∀ lr : ℤ × ℤ, InBox a lr →
      feistelLoopInv a fs (feistelLoopS a fs lr) = lr := by
  induction fs with
  | nil => intro lr _; rfl
  | cons c rest ih =>
      intro lr h
      have hstep : InBox a (lr.2, (lr.1 + scramble c lr.2) % a) :=
        ⟨h.2.2.1, h.2.2.2, Int.emod_nonneg _ ha.ne', Int.emod_lt_of_pos _ ha⟩
      simp only [feistelLoopS, feistelLoopInv]
      rw [ih _ hstep]
      simp only
      rw [emod_add_sub _ h.1 h.2.1]

lemma feistelLoopS_feistelLoopInv {a : ℤ} (ha : 0 < a) (fs : List (ℤ → ℤ)) :
    ∀ lr : ℤ × ℤ, InBox a lr →
      feistelLoopS a fs (feistelLoopInv a fs lr) = lr := by
  induction fs with
  | nil => intro lr _; rfl
  | cons c rest ih =>
      intro lr h
      have hq := feistelLoopInv_box ha rest lr h
      simp only [feistelLoopInv, feistelLoopS]
      rw [emod_sub_add _ hq.2.2.1 hq.2.2.2]
      exact ih lr h

/-! ## The Feistel map with `a = b` is a bijection on `[0, a*a)` -/

lemma feistel_eq_combine (a : ℤ) (fs : List (ℤ → ℤ)) (x : ℤ) :
    feistel a a fs x =
      (if fs.length % 2 = 1
        then a * (feistelLoopS a fs (x / a, x % a)).1 +
          (feistelLoopS a fs (x / a, x % a)).2
        else a * (feistelLoopS a fs (x / a, x % a)).2 +
          (feistelLoopS a fs (x / a, x % a)).1) := by
  unfold feistel
  rw [feistelLoop_eq_S]

lemma swap_box {a : ℤ} {lr : ℤ × ℤ} (h : InBox a lr) : InBox a (lr.2, lr.1) :=
  ⟨h.2.2.1, h.2.2.2, h.1, h.2.1⟩

lemma feistel_mem_sq {a : ℤ} (ha : 0 < a) (fs : List (ℤ → ℤ)) {x : ℤ}
    (hx : 0 ≤ x) (hx2 : x < a * a) :
    0 ≤ feistel a a fs x ∧ feistel a a fs x < a * a := by
  have hbox := feistelLoopS_box ha fs _ (split_mem_box ha hx hx2)
  rw [feistel_eq_combine]
  split
  · exact combine_mem ha hbox
  · exact combine_mem ha (swap_box hbox)

lemma feistel_mem_sq_of_ne_nil {a : ℤ} (ha : 0 < a) {fs : List (ℤ → ℤ)}
    (hfs : fs ≠ []) (x : ℤ) :
    0 ≤ feistel a a fs x ∧ feistel a a fs x < a * a := by
  have hbox := feistelLoopS_box_of_snd ha fs (x / a, x % a) hfs
    (Int.emod_nonneg x ha.ne') (Int.emod_lt_of_pos x ha)
  rw [feistel_eq_combine]
  split
  · exact combine_mem ha hbox
  · exact combine_mem ha (swap_box hbox)

lemma feistelInv_feistel {a : ℤ} (ha : 0 < a) (fs : List (ℤ → ℤ)) {x : ℤ}
    (hx : 0 ≤ x) (hx2 : x < a * a) :
    feistelInv a fs (feistel a a fs x) = x := by
  have hsplit := split_mem_box ha hx hx2
  have hbox := feistelLoopS_box ha fs _ hsplit
  rw [feistel_eq_combine]
  unfold feistelInv
  by_cases hpar : fs.length % 2 = 1
  · simp only [hpar, if_true, reduceIte]
    rw [(combine_ediv ha hbox).1, (combine_ediv ha hbox).2]
    rw [feistelLoopInv_feistelLoopS ha fs _ hsplit]
    exact Int.ediv_add_emod x a
  · simp only [hpar, if_false, reduceIte]
    have h1 : (a * (feistelLoopS a fs (x / a, x % a)).2 +
        (feistelLoopS a fs (x / a, x % a)).1) / a =
        (feistelLoopS a fs (x / a, x % a)).2 := (combine_ediv ha (swap_box hbox)).1
    have h2 : (a * (feistelLoopS a fs (x / a, x % a)).2 +
        (feistelLoopS a fs (x / a, x % a)).1) % a =
        (feistelLoopS a fs (x / a, x % a)).1 := (combine_ediv ha (swap_box hbox)).2
    rw [h1, h2]
    rw [feistelLoopInv_feistelLoopS ha fs _ hsplit]
    exact Int.ediv_add_emod x a

lemma feistelInv_mem_sq {a : ℤ} (ha : 0 < a) (fs : List (ℤ → ℤ)) {y : ℤ}
    (hy : 0 ≤ y) (hy2 : y < a * a) :
    0 ≤ feistelInv a fs y ∧ feistelInv a fs y < a * a := by
  have hsplit := split_mem_box ha hy hy2
  unfold feistelInv
  by_cases hpar : fs.length % 2 = 1
  · simp only [hpar, reduceIte]
    exact combine_mem ha (feistelLoopInv_box ha fs _ hsplit)
  · simp only [hpar, reduceIte]
    exact combine_mem ha (feistelLoopInv_box ha fs _ (swap_box hsplit))

lemma feistel_feistelInv {a : ℤ} (ha : 0 < a) (fs : List (ℤ → ℤ)) {y : ℤ}
    (hy : 0 ≤ y) (hy2 : y < a * a) :
    feistel a a fs (feistelInv a fs y) = y := by
  have hsplit := split_mem_box ha hy hy2
  unfold feistelInv
  by_cases hpar : fs.length % 2 = 1
  · simp only [hpar, reduceIte]
    have hq := feistelLoopInv_box ha fs _ hsplit
    rw [feistel_eq_combine, (combine_ediv ha hq).1, (combine_ediv ha hq).2]
    simp only [hpar, reduceIte]
    rw [feistelLoopS_feistelLoopInv ha fs _ hsplit]
    exact Int.ediv_add_emod y a
  · simp only [hpar, reduceIte]
    have hq := feistelLoopInv_box ha fs _ (swap_box hsplit)
    rw [feistel_eq_combine, (combine_ediv ha hq).1, (combine_ediv ha hq).2]
    simp only [hpar, reduceIte]
    rw [feistelLoopS_feistelLoopInv ha fs _ (swap_box hsplit)]
    exact Int.ediv_add_emod y a

lemma feistel_bijOn {a : ℤ} (ha : 0 < a) (fs : List (ℤ → ℤ)) :
    Set.BijOn (feistel a a fs) (Set.Ico 0 (a * a)) (Set.Ico 0 (a * a)) := by
  refine ⟨?_, ?_, ?_⟩
  · intro x hx
    exact Set.mem_Ico.mpr (feistel_mem_sq ha fs (Set.mem_Ico.mp hx).1
      (Set.mem_Ico.mp hx).2)
  · intro x hx y hy hxy
    have h1 := feistelInv_feistel ha fs (Set.mem_Ico.mp hx).1 (Set.mem_Ico.mp hx).2
    have h2 := feistelInv_feistel ha fs (Set.mem_Ico.mp hy).1 (Set.mem_Ico.mp hy).2
    rw [← h1, ← h2, hxy]
  · intro y hy
    obtain ⟨hy1, hy2⟩ := Set.mem_Ico.mp hy
    exact ⟨feistelInv a fs y,
      Set.mem_Ico.mpr (feistelInv_mem_sq ha fs hy1 hy2),
      feistel_feistelInv ha fs hy1 hy2⟩

/-! ## The cycle walk -/

lemma cycleWalk_eq_some (g : ℤ → ℤ) (N : ℤ) :
    ∀ (fuel : ℕ) (x y : ℤ), cycleWalk g N fuel x = some y →
      ∃ k, 1 ≤ k ∧ k ≤ fuel ∧ g^[k] x = y ∧ y < N ∧
        ∀ j, 1 ≤ j → j < k → ¬ g^[j] x < N := by
  intro fuel
  induction fuel with
  | zero => intro x y h; simp [cycleWalk] at h
  | succ fuel ih =>
      intro x y h
      simp only [cycleWalk] at h
      by_cases hlt : g x < N
      · rw [if_pos hlt] at h
        refine ⟨1, le_refl 1, by omega, ?_, ?_, ?_⟩
        · simpa using (Option.some_injective ℤ h)
        · rw [← Option.some_injective ℤ h]; exact hlt
        · intro j hj1 hj2; omega
      · rw [if_neg hlt] at h
        obtain ⟨k, hk1, hk2, hk3, hk4, hk5⟩ := ih (g x) y h
        refine ⟨k + 1, by omega, by omega, ?_, hk4, ?_⟩
        · rw [Function.iterate_succ_apply]; exact hk3
        · intro j hj1 hj2
          cases j with
          | zero => omega
          | succ j' =>
              rcases Nat.eq_zero_or_pos j' with h0 | hpos
              · subst h0; simpa using hlt
              · rw [Function.iterate_succ_apply]
                exact hk5 j' hpos (by omega)

lemma cycleWalk_isSome (g : ℤ → ℤ) (N : ℤ) :
    ∀ (fuel : ℕ) (x : ℤ), (∃ k, 1 ≤ k ∧ k ≤ fuel ∧ g^[k] x < N) →
      ∃ y, cycleWalk g N fuel x = some y := by
  intro fuel
  induction fuel with
  | zero => intro x ⟨k, hk1, hk2, _⟩; omega
  | succ fuel ih =>
      intro x ⟨k, hk1, hk2, hk3⟩
      simp only [cycleWalk]
      by_cases hlt : g x < N
      · exact ⟨g x, if_pos hlt⟩
      · rw [if_neg hlt]
        apply ih
        have hk : 2 ≤ k := by
          by_contra h2
          have hk1' : k = 1 := by omega
          subst hk1'
          simp only [Function.iterate_one] at hk3
          exact hlt hk3
        refine ⟨k - 1, by omega, by omega, ?_⟩
        have : g^[k] x = g^[k - 1] (g x) := by
          rw [← Function.iterate_succ_apply]
          congr 1
          omega
        rw [← this]
        exact hk3

lemma iterate_cancel {g : ℤ → ℤ} {S : Set ℤ} (hinj : Set.InjOn g S)
    (hmap : Set.MapsTo g S S) :
    ∀ (k : ℕ) (x y : ℤ), x ∈ S → y ∈ S → g^[k] x = g^[k] y → x = y := by
  intro k
  induction k with
  | zero => intro x y _ _ h; simpa using h
  | succ k ih =>
      intro x y hx hy h
      rw [Function.iterate_succ_apply, Function.iterate_succ_apply] at h
      exact hinj hx hy (ih (g x) (g y) (hmap hx) (hmap hy) h)

lemma exists_iterate_return {g : ℤ → ℤ} {M : ℤ}
    (hinj : Set.InjOn g (Set.Ico 0 M)) (hmap : Set.MapsTo g (Set.Ico 0 M) (Set.Ico 0 M))
    {x : ℤ} (hx : x ∈ Set.Ico 0 M) :
    ∃ k, 1 ≤ k ∧ k ≤ M.toNat ∧ g^[k] x = x := by
  have hcard : (Finset.Ico (0:ℤ) M).card < (Finset.range (M.toNat + 1)).card := by
    rw [Int.card_Ico, Finset.card_range, sub_zero]
    omega
  have hmapsF : ∀ i ∈ Finset.range (M.toNat + 1), g^[i] x ∈ Finset.Ico (0:ℤ) M := by
    intro i _
    have h := (hmap.iterate i) hx
    simpa [Finset.mem_Ico] using h
  obtain ⟨i, hi, j, hj, hij, hfij⟩ :=
    Finset.exists_ne_map_eq_of_card_lt_of_maps_to hcard hmapsF
  obtain ⟨u, v, huv, hvle, hequ⟩ : ∃ u v, u < v ∧ v ≤ M.toNat ∧ g^[u] x = g^[v] x := by
    rcases lt_or_gt_of_ne hij with hlt | hlt
    · exact ⟨i, j, hlt, Nat.lt_succ_iff.mp (Finset.mem_range.mp hj), hfij⟩
    · exact ⟨j, i, hlt, Nat.lt_succ_iff.mp (Finset.mem_range.mp hi), hfij.symm⟩
  have key : g^[u] (g^[v - u] x) = g^[u] x := by
    rw [← Function.iterate_add_apply]
    have huvu : u + (v - u) = v := by omega
    rw [huvu]
    exact hequ.symm
  have hx2 : g^[v - u] x ∈ Set.Ico 0 M := (hmap.iterate (v - u)) hx
  have hret := iterate_cancel hinj hmap u _ _ hx2 hx key
  exact ⟨v - u, by omega, by omega, hret⟩

lemma walk_inj_core {g : ℤ → ℤ} {M N : ℤ} (hinj : Set.InjOn g (Set.Ico 0 M))
    (hmap : Set.MapsTo g (Set.Ico 0 M) (Set.Ico 0 M)) (hNM : N ≤ M) :
    ∀ (k1 k2 : ℕ) (x1 x2 : ℤ), 1 ≤ k1 → k1 ≤ k2 →
      x1 ∈ Set.Ico 0 N → x2 ∈ Set.Ico 0 N → g^[k1] x1 = g^[k2] x2 →
      (∀ j, 1 ≤ j → j < k2 → ¬ g^[j] x2 < N) → x1 = x2 := by
  intro k1 k2 x1 x2 hk1 hk12 hx1 hx2 heq hmin
  have hx1M : x1 ∈ Set.Ico 0 M :=
    Set.mem_Ico.mpr ⟨(Set.mem_Ico.mp hx1).1, lt_of_lt_of_le (Set.mem_Ico.mp hx1).2 hNM⟩
  have hx2M : x2 ∈ Set.Ico 0 M :=
    Set.mem_Ico.mpr ⟨(Set.mem_Ico.mp hx2).1, lt_of_lt_of_le (Set.mem_Ico.mp hx2).2 hNM⟩
  have hiter : g^[k1] x1 = g^[k1] (g^[k2 - k1] x2) := by
    rw [← Function.iterate_add_apply]
    have h12 : k1 + (k2 - k1) = k2 := by omega
    rw [h12]
    exact heq
  have hx2' : g^[k2 - k1] x2 ∈ Set.Ico 0 M := (hmap.iterate (k2 - k1)) hx2M
  have hcanc := iterate_cancel hinj hmap k1 _ _ hx1M hx2' hiter
  rcases Nat.eq_zero_or_pos (k2 - k1) with h0 | hpos
  · rw [h0] at hcanc
    simpa using hcanc
  · exfalso
    have := hmin (k2 - k1) hpos (by omega)
    rw [← hcanc] at this
    exact this (Set.mem_Ico.mp hx1).2

lemma walk_injOn {g : ℤ → ℤ} {M N : ℤ} (hinj : Set.InjOn g (Set.Ico 0 M))
    (hmap : Set.MapsTo g (Set.Ico 0 M) (Set.Ico 0 M)) (hNM : N ≤ M)
    (fuel : ℕ) {x1 x2 y : ℤ} (hx1 : x1 ∈ Set.Ico 0 N) (hx2 : x2 ∈ Set.Ico 0 N)
    (h1 : cycleWalk g N fuel x1 = some y) (h2 : cycleWalk g N fuel x2 = some y) :
    x1 = x2 := by
  obtain ⟨k1, hk11, _, hk13, _, hk15⟩ := cycleWalk_eq_some g N fuel x1 y h1
  obtain ⟨k2, hk21, _, hk23, _, hk25⟩ := cycleWalk_eq_some g N fuel x2 y h2
  rcases le_total k1 k2 with hle | hle
  · exact walk_inj_core hinj hmap hNM k1 k2 x1 x2 hk11 hle hx1 hx2
      (hk13.trans hk23.symm) hk25
  · exact (walk_inj_core hinj hmap hNM k2 k1 x2 x1 hk21 hle hx2 hx1
      (hk23.trans hk13.symm) hk15).symm

lemma walk_terminates_core {a N : ℤ} (ha : 0 < a) (hNa : N ≤ a * a)
    (fs : List (ℤ → ℤ)) {x : ℤ} (hx : x ∈ Set.Ico 0 N) :
    ∃ y, cycleWalk (feistel a a fs) N ((a * a).toNat) x = some y ∧
      y ∈ Set.Ico 0 N := by
  have hbij := feistel_bijOn ha fs
  have hxM : x ∈ Set.Ico 0 (a * a) :=
    Set.mem_Ico.mpr ⟨(Set.mem_Ico.mp hx).1, lt_of_lt_of_le (Set.mem_Ico.mp hx).2 hNa⟩
  obtain ⟨k, hk1, hk2, hk3⟩ := exists_iterate_return hbij.injOn hbij.mapsTo hxM
  obtain ⟨y, hy⟩ := cycleWalk_isSome (feistel a a fs) N ((a * a).toNat) x
    ⟨k, hk1, hk2, by rw [hk3]; exact (Set.mem_Ico.mp hx).2⟩
  obtain ⟨k', hk'1, _, hk'3, hk'4, _⟩ :=
    cycleWalk_eq_some (feistel a a fs) N ((a * a).toNat) x y hy
  have hyM : y ∈ Set.Ico 0 (a * a) := hk'3 ▸ (hbij.mapsTo.iterate k') hxM
  exact ⟨y, hy, Set.mem_Ico.mpr ⟨(Set.mem_Ico.mp hyM).1, hk'4⟩⟩

lemma getVal_bijOn_core {a N : ℤ} (ha : 0 < a) (hNa : N ≤ a * a)
    (fs : List (ℤ → ℤ)) :
    Set.BijOn (fun x => (cycleWalk (feistel a a fs) N ((a * a).toNat) x).getD 0)
      (Set.Ico 0 N) (Set.Ico 0 N) := by
  have hbij := feistel_bijOn ha fs
  have hmapsTo : Set.MapsTo
      (fun x => (cycleWalk (feistel a a fs) N ((a * a).toNat) x).getD 0)
      (Set.Ico 0 N) (Set.Ico 0 N) := by
    intro x hx
    obtain ⟨y, hy, hmem⟩ := walk_terminates_core ha hNa fs hx
    simpa [hy] using hmem
  have hinjOn : Set.InjOn
      (fun x => (cycleWalk (feistel a a fs) N ((a * a).toNat) x).getD 0)
      (Set.Ico 0 N) := by
    intro x1 hx1 x2 hx2 heq
    obtain ⟨y1, hy1, _⟩ := walk_terminates_core ha hNa fs hx1
    obtain ⟨y2, hy2, _⟩ := walk_terminates_core ha hNa fs hx2
    simp only [hy1, hy2, Option.getD_some] at heq
    subst heq
    exact walk_injOn hbij.injOn hbij.mapsTo hNa _ hx1 hx2 hy1 hy2
  exact ((Set.finite_Ico 0 N).injOn_iff_bijOn_of_mapsTo hmapsTo).mp hinjOn

lemma walk_mem_of_ne_nil {a N : ℤ} (ha : 0 < a) {fs : List (ℤ → ℤ)}
    (hfs : fs ≠ []) {fuel : ℕ} {x y : ℤ}
    (h : cycleWalk (feistel a a fs) N fuel x = some y) : 0 ≤ y ∧ y < N := by
  obtain ⟨k, hk1, _, hk3, hk4, _⟩ := cycleWalk_eq_some (feistel a a fs) N fuel x y h
  have hk : k = (k - 1) + 1 := by omega
  rw [hk, Function.iterate_succ_apply'] at hk3
  exact ⟨hk3 ▸ (feistel_mem_sq_of_ne_nil ha hfs _).1, hk4⟩

/-! ## Properties of the constructed object -/

lemma make_ciphers_length (roundFun : ℤ → ℕ → ℤ → ℤ) (seed : ℤ) (R : ℕ) :
    (make_ciphers roundFun seed R).length = R := by
  simp [make_ciphers]

lemma mk_fields (roundFun : ℤ → ℕ → ℤ → ℤ) (N seed : ℤ) (R : ℕ) :
    (mkRandomPermutation roundFun N seed R).max = N ∧
    (mkRandomPermutation roundFun N seed R).a = ceilSqrt N ∧
    (mkRandomPermutation roundFun N seed R).b = ceilSqrt N ∧
    (mkRandomPermutation roundFun N seed R).ciphers =
      make_ciphers roundFun seed R :=
  ⟨rfl, rfl, rfl, rfl⟩

/-! ## The equal-index-range form of the Feistel loop -/

lemma foldl_range_succ {β : Type} (f : β → ℕ → β) (n : ℕ) (b : β) :
    (List.range (n + 1)).foldl f b =
      (List.range n).foldl (fun x i => f x (i + 1)) (f b 0) := by
  rw [List.range_succ_eq_map, List.foldl_cons, List.foldl_map]

lemma feistelLoop_eq_range (a b : ℤ) :
    ∀ (fs : List (ℤ → ℤ)) (j : ℕ) (lr : ℤ × ℤ),
      feistelLoop a b j fs lr =
        (List.range fs.length).foldl
          (fun lr i =>
            (lr.2,
              if (j + i) % 2 = 0 then (lr.1 + scramble (fs.getD i id) lr.2) % a
              else (lr.1 + scramble (fs.getD i id) lr.2) % b)) lr := by
  intro fs
  induction fs with
  | nil => intro j lr; rfl
  | cons c rest ih =>
      intro j lr
      simp only [feistelLoop]
      rw [ih (j + 1)]
      have hlen : (c :: rest).length = rest.length + 1 := rfl
      rw [hlen, foldl_range_succ]
      congr 1
      funext p i
      have hj : j + (i + 1) = (j + 1) + i := by omega
      simp only [List.getD_cons_succ]
      rw [hj]

lemma feistelLoop_zero_eq_specLoop (a b : ℤ) (fs : List (ℤ → ℤ)) (lr : ℤ × ℤ) :
    feistelLoop a b 0 fs lr = feistelSpecLoop a b fs lr := by
  rw [feistelLoop_eq_range]
  unfold feistelSpecLoop
  congr 1
  funext p i
  rw [Nat.zero_add]

/-! ## The claims -/

/-- C2 counterexample: for unequal moduli the Feistel map is not a bijection on
`[0, a·b)`.  With `a = 2`, `b = 3` and the single constant-zero round function,
`feistel` sends both `0` and `4` to `0`, so it is not a bijection on
`[0, 2·3) = [0, 6)`: the claim fails as stated for arbitrary fixed `a`, `b`. -/
theorem feistel_general_moduli_cex :
    feistel 2 3 [fun _ => 0] 0 = 0 ∧ feistel 2 3 [fun _ => 0] 4 = 0 ∧
    ¬ Set.BijOn (feistel 2 3 [fun _ => 0])
      (Set.Ico 0 (2 * 3)) (Set.Ico 0 (2 * 3)) := by
  refine ⟨rfl, rfl, fun h => ?_⟩
  have h04 : (0 : ℤ) = 4 :=
    h.injOn (Set.mem_Ico.mpr (by norm_num)) (Set.mem_Ico.mpr (by norm_num)) rfl
  norm_num at h04

/-- C2 (amended): for any fixed list of round functions and any fixed positive
moduli with `a = b` — which is how the code always instantiates the network,
`a = b = ceil(sqrt(N))` — the Feistel map is a bijection on `[0, a·b)`,
regardless of what values the round functions produce. -/
theorem feistel_bijOn_of_eq_moduli (a b : ℤ) (fs : List (ℤ → ℤ)) (ha : 0 < a)
    (hab : a = b) :
    Set.BijOn (feistel a b fs) (Set.Ico 0 (a * b)) (Set.Ico 0 (a * b)) := by
  subst hab
  exact feistel_bijOn ha fs

theorem feistel_bijOn_of_eq_moduli_witness :
    0 < (2 : ℤ) ∧ (2 : ℤ) = 2 ∧
    Set.BijOn (feistel 2 2 [fun _ => 0]) (Set.Ico 0 (2 * 2)) (Set.Ico 0 (2 * 2)) :=
  ⟨by norm_num, rfl, feistel_bijOn_of_eq_moduli 2 2 [fun _ => 0] (by norm_num) rfl⟩

/-- C3: for every input `x`, `feistel x` follows exactly the specified steps:
split `l = x div a`, `r = x mod a`; for each round index `j` from `0` to `R-1`
compute `tmp = (l + scramble(F_j, r)) mod a` when `j` is even and `mod b` when
`j` is odd, then swap `(l, r) ← (r, tmp)`; finally return `a·l + r` when `R`
is odd and `a·r + l` when `R` is even (this is `feistelSpec`). -/
theorem feistel_eq_feistelSpec (a b : ℤ) (fs : List (ℤ → ℤ)) (x : ℤ) :
    feistel a b fs x = feistelSpec a b fs x := by
  show (if fs.length % 2 = 1
      then a * (feistelLoop a b 0 fs (x / a, x % a)).1 +
        (feistelLoop a b 0 fs (x / a, x % a)).2
      else a * (feistelLoop a b 0 fs (x / a, x % a)).2 +
        (feistelLoop a b 0 fs (x / a, x % a)).1) =
    feistelSpec a b fs x
  unfold feistelSpec
  rw [feistelLoop_zero_eq_specLoop]

/-- C5: two `RandomPermutation` objects constructed with identical
`(length, seed, num_ciphers)` (and the same external cipher pipeline) return
identical results from `__getitem__` at every index: lookups are a pure
function of the construction parameters, with no hidden state. -/
theorem getItem_deterministic (roundFun : ℤ → ℕ → ℤ → ℤ) (N seed : ℤ) (R : ℕ)
    (p1 p2 : RandomPermutation)
    (h1 : p1 = mkRandomPermutation roundFun N seed R)
    (h2 : p2 = mkRandomPermutation roundFun N seed R) :
    ∀ (fuel : ℕ) (i : ℤ), getItem p1 fuel i = getItem p2 fuel i := by
  subst h1
  subst h2
  intro fuel i
  rfl

theorem getItem_deterministic_witness :
    mkRandomPermutation (fun _ _ _ => (0 : ℤ)) 1 0 1 =
      mkRandomPermutation (fun _ _ _ => (0 : ℤ)) 1 0 1 ∧
    getItem (mkRandomPermutation (fun _ _ _ => (0 : ℤ)) 1 0 1) 1 0 =
      getItem (mkRandomPermutation (fun _ _ _ => (0 : ℤ)) 1 0 1) 1 0 :=
  ⟨rfl, getItem_deterministic (fun _ _ _ => (0 : ℤ)) 1 0 1 _ _ rfl rfl 1 0⟩

/-- C8: after construction with positive length `N`, the fields `a` and `b`
both equal `ceil(sqrt(N))` and satisfy `a·b ≥ N`; the object is never mutated
(all operations in the model are pure functions of the constructed state), so
this holds throughout its lifetime. -/
theorem mk_a_b_eq_ceilSqrt (roundFun : ℤ → ℕ → ℤ → ℤ) (N seed : ℤ) (R : ℕ)
    (hN : 0 < N) (p : RandomPermutation)
    (hp : p = mkRandomPermutation roundFun N seed R) :
    p.a = ceilSqrt N ∧ p.b = ceilSqrt N ∧ N ≤ p.a * p.b := by
  subst hp
  exact ⟨rfl, rfl, le_ceilSqrt_mul hN.le⟩

theorem mk_a_b_eq_ceilSqrt_witness :
    0 < (1 : ℤ) ∧
    ((mkRandomPermutation (fun _ _ _ => (0 : ℤ)) 1 0 1).a = ceilSqrt 1 ∧
     (mkRandomPermutation (fun _ _ _ => (0 : ℤ)) 1 0 1).b = ceilSqrt 1 ∧
     (1 : ℤ) ≤ (mkRandomPermutation (fun _ _ _ => (0 : ℤ)) 1 0 1).a *
       (mkRandomPermutation (fun _ _ _ => (0 : ℤ)) 1 0 1).b) :=
  ⟨by norm_num,
    mk_a_b_eq_ceilSqrt (fun _ _ _ => (0 : ℤ)) 1 0 1 (by norm_num) _ rfl⟩

/-- C1: for every valid configuration (positive length `N`, any seed, positive
round count), `get` restricted to `[0, N)` is a bijection on `[0, N)` — no
duplicate and no omitted value — so its value set equals `[0, N)` exactly. -/
theorem getVal_bijOn_valid (roundFun : ℤ → ℕ → ℤ → ℤ) (N seed : ℤ) (R : ℕ)
    (hN : 0 < N) (_hR : 0 < R) :
    Set.BijOn (getVal (mkRandomPermutation roundFun N seed R))
      (Set.Ico 0 N) (Set.Ico 0 N) ∧
    getVal (mkRandomPermutation roundFun N seed R) '' Set.Ico 0 N =
      Set.Ico 0 N := by
  have hbij : Set.BijOn (getVal (mkRandomPermutation roundFun N seed R))
      (Set.Ico 0 N) (Set.Ico 0 N) :=
    getVal_bijOn_core (ceilSqrt_pos hN) (le_ceilSqrt_mul hN.le)
      (make_ciphers roundFun seed R)
  exact ⟨hbij, hbij.image_eq⟩

theorem getVal_bijOn_valid_witness :
    0 < (1 : ℤ) ∧ 0 < 1 ∧
    Set.BijOn (getVal (mkRandomPermutation (fun _ _ _ => (0 : ℤ)) 1 0 1))
      (Set.Ico 0 1) (Set.Ico 0 1) :=
  ⟨by norm_num, by norm_num,
    (getVal_bijOn_valid (fun _ _ _ => (0 : ℤ)) 1 0 1 (by norm_num) (by norm_num)).1⟩

/-- C7: for every starting index `x` in `[0, N)`, the cycle-walking loop
terminates, and within at most `a·b` applications of the Feistel map (the
walk run with fuel `a·b` returns a value). -/
theorem cycleWalk_terminates_within_ab (roundFun : ℤ → ℕ → ℤ → ℤ)
    (N seed : ℤ) (R : ℕ) (hN : 0 < N) (_hR : 0 < R) (x : ℤ)
    (hx : x ∈ Set.Ico 0 (mkRandomPermutation roundFun N seed R).max) :
    ∃ y, cycleWalk
      (feistel (mkRandomPermutation roundFun N seed R).a
        (mkRandomPermutation roundFun N seed R).b
        (mkRandomPermutation roundFun N seed R).ciphers)
      (mkRandomPermutation roundFun N seed R).max
      (walkFuel (mkRandomPermutation roundFun N seed R)) x = some y := by
  obtain ⟨y, hy, _⟩ := walk_terminates_core (ceilSqrt_pos hN)
    (le_ceilSqrt_mul hN.le) (make_ciphers roundFun seed R) hx
  exact ⟨y, hy⟩

theorem cycleWalk_terminates_within_ab_witness :
    0 < (1 : ℤ) ∧ 0 < 1 ∧
    (0 : ℤ) ∈ Set.Ico 0 (mkRandomPermutation (fun _ _ _ => (0 : ℤ)) 1 0 1).max ∧
    ∃ y, cycleWalk
      (feistel (mkRandomPermutation (fun _ _ _ => (0 : ℤ)) 1 0 1).a
        (mkRandomPermutation (fun _ _ _ => (0 : ℤ)) 1 0 1).b
        (mkRandomPermutation (fun _ _ _ => (0 : ℤ)) 1 0 1).ciphers)
      (mkRandomPermutation (fun _ _ _ => (0 : ℤ)) 1 0 1).max
      (walkFuel (mkRandomPermutation (fun _ _ _ => (0 : ℤ)) 1 0 1)) 0 = some y :=
  ⟨by norm_num, by norm_num,
    (Set.mem_Ico.mpr (by norm_num) : (0 : ℤ) ∈ Set.Ico 0 (1 : ℤ)),
    cycleWalk_terminates_within_ab (fun _ _ _ => (0 : ℤ)) 1 0 1 (by norm_num)
      (by norm_num) 0 (Set.mem_Ico.mpr (by norm_num) : (0 : ℤ) ∈ Set.Ico 0 (1 : ℤ))⟩

/-- C9: for a permutation constructed with `length = 1` (any seed, any
positive round count), `get(0)` equals `0`. -/
theorem getVal_length_one (roundFun : ℤ → ℕ → ℤ → ℤ) (seed : ℤ) (R : ℕ)
    (_hR : 0 < R) (p : RandomPermutation)
    (hp : p = mkRandomPermutation roundFun 1 seed R) :
    getVal p 0 = 0 ∧ getItem p (walkFuel p) 0 = GetResult.ok 0 := by
  subst hp
  obtain ⟨y, hy, hmem⟩ := walk_terminates_core (ceilSqrt_pos one_pos)
    (le_ceilSqrt_mul one_pos.le) (make_ciphers roundFun seed R)
    (Set.mem_Ico.mpr ⟨le_refl (0 : ℤ), one_pos⟩)
  have hy0 : y = 0 := by
    obtain ⟨h1, h2⟩ := Set.mem_Ico.mp hmem
    omega
  subst hy0
  constructor
  · show (cycleWalk (feistel (ceilSqrt 1) (ceilSqrt 1)
        (make_ciphers roundFun seed R)) 1 ((ceilSqrt 1 * ceilSqrt 1).toNat)
        0).getD 0 = 0
    rw [hy]
    rfl
  · show (if (1 : ℤ) ≤ 0 then GetResult.indexError
      else
        match cycleWalk (feistel (ceilSqrt 1) (ceilSqrt 1)
            (make_ciphers roundFun seed R)) 1
            ((ceilSqrt 1 * ceilSqrt 1).toNat) 0 with
        | some y => GetResult.ok y
        | none => GetResult.timeout) = GetResult.ok 0
    rw [if_neg (by norm_num : ¬ (1 : ℤ) ≤ 0), hy]

theorem getVal_length_one_witness :
    0 < 1 ∧
    (getVal (mkRandomPermutation (fun _ _ _ => (0 : ℤ)) 1 0 1) 0 = 0 ∧
     getItem (mkRandomPermutation (fun _ _ _ => (0 : ℤ)) 1 0 1)
       (walkFuel (mkRandomPermutation (fun _ _ _ => (0 : ℤ)) 1 0 1)) 0 =
       GetResult.ok 0) :=
  ⟨by norm_num,
    getVal_length_one (fun _ _ _ => (0 : ℤ)) 0 1 (by norm_num) _ rfl⟩

/-- C10 (implicit behavior): the bounds check compares only against the upper
bound, so `get` accepts every integer index `< length` — in particular every
negative index — without raising `IndexError`; whenever the cycle walk
terminates on such an index it yields a value in `[0, N)`; in particular
`get(-1)` does not signal OutOfRange. -/
theorem getItem_accepts_negative (roundFun : ℤ → ℕ → ℤ → ℤ) (N seed : ℤ)
    (R : ℕ) (hN : 0 < N) (hR : 0 < R) (p : RandomPermutation)
    (hp : p = mkRandomPermutation roundFun N seed R) :
    (∀ (fuel : ℕ) (i : ℤ), i < N → getItem p fuel i ≠ GetResult.indexError) ∧
    (∀ (fuel : ℕ) (i y : ℤ), i < N →
      cycleWalk (feistel p.a p.b p.ciphers) p.max fuel i = some y →
      getItem p fuel i = GetResult.ok y ∧ 0 ≤ y ∧ y < N) ∧
    (∀ fuel : ℕ, getItem p fuel (-1) ≠ GetResult.indexError) := by
  subst hp
  have ha := ceilSqrt_pos hN
  have hfs : make_ciphers roundFun seed R ≠ [] :=
    List.ne_nil_of_length_pos (by rw [make_ciphers_length]; exact hR)
  have hnoerr : ∀ (fuel : ℕ) (i : ℤ), i < N →
      getItem (mkRandomPermutation roundFun N seed R) fuel i ≠
        GetResult.indexError := by
    intro fuel i hi
    unfold getItem
    rw [if_neg (not_le.mpr hi :
      ¬ (mkRandomPermutation roundFun N seed R).max ≤ i)]
    split
    · intro h
      exact GetResult.noConfusion h
    · intro h
      exact GetResult.noConfusion h
  refine ⟨hnoerr, ?_, fun fuel => hnoerr fuel (-1) (by omega)⟩
  intro fuel i y hi hcw
  refine ⟨?_, walk_mem_of_ne_nil ha hfs hcw⟩
  unfold getItem
  rw [if_neg (not_le.mpr hi :
    ¬ (mkRandomPermutation roundFun N seed R).max ≤ i)]
  rw [hcw]

theorem getItem_accepts_negative_witness :
    0 < (1 : ℤ) ∧ 0 < 1 ∧
    getItem (mkRandomPermutation (fun _ _ _ => (0 : ℤ)) 1 0 1) 1 (-1) ≠
      GetResult.indexError :=
  ⟨by norm_num, by norm_num,
    (getItem_accepts_negative (fun _ _ _ => (0 : ℤ)) 1 0 1 (by norm_num)
      (by norm_num) _ rfl).2.2 1⟩

/-- C4 counterexample: the claim "get fails with IndexError for every integer
index outside `[0, length)`" is false: with length 1, the negative index `-1`
is outside `[0, 1)` yet `get(-1)` raises nothing and returns the value `0`. -/
theorem getItem_negative_index_cex :
    ¬ ((0 : ℤ) ≤ -1) ∧
    getItem (mkRandomPermutation (fun _ _ _ => (0 : ℤ)) 1 0 1) 1 (-1) =
      GetResult.ok 0 := by
  refine ⟨by norm_num, ?_⟩
  rfl

/-- C4 (amended): `get(index)` fails with an `IndexError` exactly when
`index ≥ length` (the code checks only the upper bound, so negative indices
are not rejected); in particular `get(N)` fails and `get(N-1)` succeeds; the
object is unchanged by a failing call (all calls are pure functions of the
constructed state), so it remains valid and reusable afterwards. -/
theorem getItem_outOfRange_iff (roundFun : ℤ → ℕ → ℤ → ℤ) (N seed : ℤ)
    (R : ℕ) (hN : 0 < N) (p : RandomPermutation)
    (hp : p = mkRandomPermutation roundFun N seed R) :
    (∀ (fuel : ℕ) (i : ℤ),
      getItem p fuel i = GetResult.indexError ↔ N ≤ i) ∧
    getItem p (walkFuel p) N = GetResult.indexError ∧
    (∃ y, getItem p (walkFuel p) (N - 1) = GetResult.ok y) := by
  subst hp
  have hiff : ∀ (fuel : ℕ) (i : ℤ),
      getItem (mkRandomPermutation roundFun N seed R) fuel i =
        GetResult.indexError ↔ N ≤ i := by
    intro fuel i
    constructor
    · intro h
      by_contra hlt
      rw [not_le] at hlt
      unfold getItem at h
      rw [if_neg (not_le.mpr hlt :
        ¬ (mkRandomPermutation roundFun N seed R).max ≤ i)] at h
      revert h
      split
      · intro h
        exact GetResult.noConfusion h
      · intro h
        exact GetResult.noConfusion h
    · intro hle
      show (if N ≤ i then GetResult.indexError
        else
          match cycleWalk (feistel (ceilSqrt N) (ceilSqrt N)
              (make_ciphers roundFun seed R)) N fuel i with
          | some y => GetResult.ok y
          | none => GetResult.timeout) = GetResult.indexError
      rw [if_pos hle]
  refine ⟨hiff, (hiff _ N).mpr (le_refl N), ?_⟩
  obtain ⟨y, hy, _⟩ := walk_terminates_core (ceilSqrt_pos hN)
    (le_ceilSqrt_mul hN.le) (make_ciphers roundFun seed R)
    (Set.mem_Ico.mpr ⟨by omega, by omega⟩ : N - 1 ∈ Set.Ico 0 N)
  refine ⟨y, ?_⟩
  show (if N ≤ N - 1 then GetResult.indexError
    else
      match cycleWalk (feistel (ceilSqrt N) (ceilSqrt N)
          (make_ciphers roundFun seed R)) N
          ((ceilSqrt N * ceilSqrt N).toNat) (N - 1) with
      | some y => GetResult.ok y
      | none => GetResult.timeout) = GetResult.ok y
  rw [if_neg (by omega : ¬ N ≤ N - 1), hy]

theorem getItem_outOfRange_iff_witness :
    0 < (1 : ℤ) ∧
    ((∀ (fuel : ℕ) (i : ℤ),
       getItem (mkRandomPermutation (fun _ _ _ => (0 : ℤ)) 1 0 1) fuel i =
         GetResult.indexError ↔ (1 : ℤ) ≤ i) ∧
     getItem (mkRandomPermutation (fun _ _ _ => (0 : ℤ)) 1 0 1)
       (walkFuel (mkRandomPermutation (fun _ _ _ => (0 : ℤ)) 1 0 1)) 1 =
       GetResult.indexError ∧
     (∃ y, getItem (mkRandomPermutation (fun _ _ _ => (0 : ℤ)) 1 0 1)
       (walkFuel (mkRandomPermutation (fun _ _ _ => (0 : ℤ)) 1 0 1)) (1 - 1) =
       GetResult.ok y)) :=
  ⟨by norm_num,
    getItem_outOfRange_iff (fun _ _ _ => (0 : ℤ)) 1 0 1 (by norm_num) _ rfl⟩

/-- C6: the sequence yielded by `__iter__` equals, element for element and in
order, the list `[get(0), get(1), …, get(N-1)]`; it is finite with exactly
`N` elements, and — `iterList` being a pure function of the object — a fresh
call produces the same sequence again starting from index 0. -/
theorem iterList_eq_getVals (roundFun : ℤ → ℕ → ℤ → ℤ) (N seed : ℤ) (R : ℕ)
    (hN : 0 < N) (p : RandomPermutation)
    (hp : p = mkRandomPermutation roundFun N seed R) :
    iterList p (walkFuel p) =
      (List.range p.max.toNat).map (fun i : ℕ => some (getVal p (i : ℤ))) ∧
    (iterList p (walkFuel p)).length = p.max.toNat ∧
    (∀ i : ℕ, i < p.max.toNat →
      getItem p (walkFuel p) (i : ℤ) = GetResult.ok (getVal p (i : ℤ))) := by
  subst hp
  have key : ∀ i : ℕ, i < N.toNat → ∃ y,
      cycleWalk (feistel (ceilSqrt N) (ceilSqrt N) (make_ciphers roundFun seed R))
        N ((ceilSqrt N * ceilSqrt N).toNat) (i : ℤ) = some y := by
    intro i hi
    have hx : (i : ℤ) ∈ Set.Ico 0 N := Set.mem_Ico.mpr ⟨Int.ofNat_nonneg i, by omega⟩
    obtain ⟨y, hy, _⟩ := walk_terminates_core (ceilSqrt_pos hN)
      (le_ceilSqrt_mul hN.le) (make_ciphers roundFun seed R) hx
    exact ⟨y, hy⟩
  refine ⟨?_, ?_, ?_⟩
  · show (List.range N.toNat).map
        (fun i : ℕ => cycleWalk (feistel (ceilSqrt N) (ceilSqrt N)
          (make_ciphers roundFun seed R)) N ((ceilSqrt N * ceilSqrt N).toNat)
          (i : ℤ)) =
      (List.range N.toNat).map
        (fun i : ℕ => some ((cycleWalk (feistel (ceilSqrt N) (ceilSqrt N)
          (make_ciphers roundFun seed R)) N ((ceilSqrt N * ceilSqrt N).toNat)
          (i : ℤ)).getD 0))
    rw [List.map_eq_map_iff]
    intro i hi
    obtain ⟨y, hy⟩ := key i (List.mem_range.mp hi)
    rw [hy]
    rfl
  · show ((List.range N.toNat).map
        (fun i : ℕ => cycleWalk (feistel (ceilSqrt N) (ceilSqrt N)
          (make_ciphers roundFun seed R)) N ((ceilSqrt N * ceilSqrt N).toNat)
          (i : ℤ))).length = N.toNat
    rw [List.length_map, List.length_range]
  · intro i hi0
    have hi : i < N.toNat := hi0
    obtain ⟨y, hy⟩ := key i hi
    show (if N ≤ (i : ℤ) then GetResult.indexError
      else
        match cycleWalk (feistel (ceilSqrt N) (ceilSqrt N)
            (make_ciphers roundFun seed R)) N
            ((ceilSqrt N * ceilSqrt N).toNat) (i : ℤ) with
        | some y => GetResult.ok y
        | none => GetResult.timeout) =
      GetResult.ok ((cycleWalk (feistel (ceilSqrt N) (ceilSqrt N)
        (make_ciphers roundFun seed R)) N ((ceilSqrt N * ceilSqrt N).toNat)
        (i : ℤ)).getD 0)
    rw [if_neg (by omega : ¬ N ≤ (i : ℤ)), hy]
    rfl

theorem iterList_eq_getVals_witness :
    0 < (1 : ℤ) ∧
    iterList (mkRandomPermutation (fun _ _ _ => (0 : ℤ)) 1 0 1)
      (walkFuel (mkRandomPermutation (fun _ _ _ => (0 : ℤ)) 1 0 1)) =
      (List.range (mkRandomPermutation (fun _ _ _ => (0 : ℤ)) 1 0 1).max.toNat).map
        (fun i : ℕ =>
          some (getVal (mkRandomPermutation (fun _ _ _ => (0 : ℤ)) 1 0 1) (i : ℤ))) :=
  ⟨by norm_num,
    (iterList_eq_getVals (fun _ _ _ => (0 : ℤ)) 1 0 1 (by norm_num) _ rfl).1⟩

end RandomPerm
